import Mathlib

/-!
Verification of the tmuxer job manager (shallow embedding).

The repository drives a terminal multiplexer from TypeScript.  The pure
logic of its operations is embedded here over `List Char` models of the
JavaScript strings the code manipulates:

* `esc` — the shared shell-quoting helper (`src/tools.ts`, both variants);
* `allocateId` — auto id allocation in `createJob` (counter-less variant);
* `normalizeRow`, `listJobs3` — the job directory read model;
* `cleanupJobs` — the soft reaper;
* `createJobExplicitRun` — explicit-id collision checking;
* `envEntries` — the environment handling of `createJob`;
* `jsSplit`, `sendKeysArgs` — the input-token parser of `sendInput`;
* `getJobOutputText` — output capture tail slicing.

JavaScript numeric coercions are modelled by `Option Int`: `none` stands
for NaN, `some n` for the integer n.  The fragment modelled is the one the
code meets: decimal digit strings with an optional sign (fractional,
exponent, hexadecimal and Infinity forms do not arise in window indices,
history sizes, cursor rows, pids, dead flags or exit statuses, and every
general theorem below restricts its inputs to the modelled fragment; the
concrete counterexamples evaluate the model only on strings where it
agrees with JavaScript exactly).
-/

namespace Tmuxer

/-! ### JavaScript string-to-number primitives -/

/-- ASCII decimal digit test. -/
def isDigitChar (c : Char) : Bool := 48 ≤ c.toNat && c.toNat ≤ 57

/-- Value of an ASCII digit character. -/
def digitVal (c : Char) : Nat := c.toNat - 48

/-- Value of a decimal digit string, most significant digit first. -/
def parseDigits (l : List Char) : Nat :=
  l.foldl (fun a c => a * 10 + digitVal c) 0

/-- Decimal digits of a natural number, as JavaScript stringifies it. -/
def natDigits (n : Nat) : List Char :=
  if n < 10 then [Char.ofNat (48 + n)]
  else natDigits (n / 10) ++ [Char.ofNat (48 + n % 10)]
termination_by n
decreasing_by exact Nat.div_lt_self (by omega) (by decide)

/-- JavaScript `Number(s)` on the digit/sign fragment: `none` is NaN.
`Number("") = 0`, `Number("25") = 25`, `Number("-5") = -5`,
`Number("s1") = NaN`. -/
def jsStrToNumber (l : List Char) : Option Int :=
  if l.all isDigitChar then some (parseDigits l)
  else
    match l with
    | '-' :: rest =>
        if rest ≠ [] && rest.all isDigitChar then some (-(parseDigits rest : Int))
        else none
    | '+' :: rest =>
        if rest ≠ [] && rest.all isDigitChar then some ((parseDigits rest : Int))
        else none
    | _ => none

/-- JavaScript `parseInt(s, 10)` on the no-whitespace fragment: parses the
longest leading run of digits (after an optional sign); `none` is NaN. -/
def parseIntJS (l : List Char) : Option Int :=
  match l with
  | '-' :: rest =>
      let d := rest.takeWhile isDigitChar
      if d = [] then none else some (-(parseDigits d : Int))
  | _ =>
      let d := l.takeWhile isDigitChar
      if d = [] then none else some ((parseDigits d : Int))

/-- NaN-propagating addition (`NaN + x = NaN`). -/
def jsAdd : Option Int → Option Int → Option Int
  | some a, some b => some (a + b)
  | _, _ => none

/-- NaN-propagating subtraction. -/
def jsSub : Option Int → Option Int → Option Int
  | some a, some b => some (a - b)
  | _, _ => none

/-- NaN-propagating multiplication (on the integer fragment). -/
def jsMul : Option Int → Option Int → Option Int
  | some a, some b => some (a * b)
  | _, _ => none

/-- `Math.max` of two values: NaN wins. -/
def jsMax : Option Int → Option Int → Option Int
  | some a, some b => some (max a b)
  | _, _ => none

/-- `Math.max(...xs)` over a nonempty spread ( `[]` is unreachable: the
call site guards on the length). -/
def jsMaxList : List (Option Int) → Option Int
  | [] => none
  | [x] => x
  | x :: xs => jsMax x (jsMaxList xs)

/-- Template-literal rendering of a number: NaN prints as `NaN`, integers
in decimal. -/
def jsNumToChars : Option Int → List Char
  | none => ['N', 'a', 'N']
  | some i => if i < 0 then '-' :: natDigits i.natAbs else natDigits i.natAbs

/-! ### The shared shell escape (`esc`)

Source (identical in `src/tools.ts` and the sibling variant):
`const esc = (str) => `'${str.replace(/'/g, "'\\''")}'`;`
Each single quote of the input becomes the four characters `'\''` and the
whole is wrapped in single quotes. -/

/-- Replacement of one character under `str.replace(/'/g, "'\\''")`. -/
def escChar (c : Char) : List Char :=
  if c = '\'' then ['\'', '\\', '\'', '\''] else [c]

/-- The `esc` helper: wrap in single quotes, escaping embedded quotes by
closing and reopening. -/
def esc (s : List Char) : List Char :=
  '\'' :: (s.flatMap escChar ++ ['\''])

/-- Characters that, unquoted, would end the word or trigger expansion:
a conservative POSIX metacharacter set.  `esc` output never exposes any
of these outside quotes. -/
def isShellSpecial (c : Char) : Bool :=
  c = ' ' || c = '\t' || c = '\n' || c = '|' || c = '&' || c = ';' ||
  c = '<' || c = '>' || c = '(' || c = ')' || c = '$' || c = '`' ||
  c = '"' || c = '*' || c = '?' || c = '[' || c = '#' || c = '~'

/-- POSIX evaluation of a word, with a flag for being inside single
quotes.  Inside quotes every character up to the closing quote is
literal; outside, a backslash escapes the next character (removing a
backslash-newline), a single quote opens a quoted segment, ordinary
characters stand for themselves, and an unquoted metacharacter, an
unterminated quote or a trailing backslash means the input is not a
single opaque word (`none`). -/
def unquoteAux : Bool → List Char → Option (List Char)
  | false, [] => some []
  | true, [] => none
  | true, c :: rest =>
      if c = '\'' then unquoteAux false rest
      else (unquoteAux true rest).map (fun t => c :: t)
  | false, c :: rest =>
      if c = '\'' then unquoteAux true rest
      else if c = '\\' then
        match rest with
        | [] => none
        | c2 :: rest2 =>
            if c2 = '\n' then unquoteAux false rest2
            else (unquoteAux false rest2).map (fun t => c2 :: t)
      else if isShellSpecial c then none
      else (unquoteAux false rest).map (fun t => c :: t)

/-- POSIX evaluation of a whole word, starting outside quotes. -/
def unquote (l : List Char) : Option (List Char) := unquoteAux false l

/-! ### Auto id allocation in `createJob`

Source (the directory-scanning variant):
```
const jobs = (await listJobs({})).map(({ jobId }) => jobId);
const ids = jobs.map((j) => j.startsWith(prefix) && j.slice(prefix.length));
const maxId = ids.length ? Math.max(...ids.map(Number)) : 0;
const id = `${prefix}${maxId + 1}`;
```
An entry of `ids` is either the suffix string (when the job id starts with
the prefix) or the boolean `false`; `Number(false) = 0`. -/

/-- One entry of `ids`: `j.startsWith(pfx) && j.slice(pfx.length)`.
`none` models the JavaScript `false`. -/
def suffixEntry (pfx j : List Char) : Option (List Char) :=
  if pfx.isPrefixOf j then some (j.drop pfx.length) else none

/-- `Number` applied to an `ids` entry: `Number(false) = 0`. -/
def entryNumber : Option (List Char) → Option Int
  | none => some 0
  | some s => jsStrToNumber s

/-- `ids.length ? Math.max(...ids.map(Number)) : 0`. -/
def allocMax (jobIds : List (List Char)) (pfx : List Char) : Option Int :=
  if jobIds = [] then some 0
  else jsMaxList (jobIds.map (fun j => entryNumber (suffixEntry pfx j)))

/-- The allocated id: `` `${prefix}${maxId + 1}` ``. -/
def allocateId (jobIds : List (List Char)) (pfx : List Char) : List Char :=
  pfx ++ jsNumToChars (jsAdd (allocMax jobIds pfx) (some 1))

/-- Numeric contribution of one job id on the all-digit-suffix fragment:
`0` for ids under another prefix (what `Number(false)` contributes). -/
def entryVal (pfx j : List Char) : Nat :=
  if pfx.isPrefixOf j then parseDigits (j.drop pfx.length) else 0

/-- Maximum numeric suffix over a snapshot (0 when no job shares the
prefix — suffix values are naturals, so the extra 0 never changes it). -/
def maxSuffix (jobIds : List (List Char)) (pfx : List Char) : Nat :=
  jobIds.foldl (fun m j => max m (entryVal pfx j)) 0

/-- A job id is within the numeric-sequencing fragment for `pfx`: if it
starts with the prefix, its suffix is all decimal digits (the empty
suffix counts: `Number("") = 0`). -/
def goodId (pfx j : List Char) : Prop :=
  pfx.isPrefixOf j = true → (j.drop pfx.length).all isDigitChar = true

instance (pfx j : List Char) : Decidable (goodId pfx j) :=
  if h : pfx.isPrefixOf j = true then
    if h2 : (j.drop pfx.length).all isDigitChar = true then .isTrue (fun _ => h2)
    else .isFalse (fun f => h2 (f h))
  else .isTrue (fun hp => absurd hp h)

/-! ### The job directory (`listJobs`)

Source (row mapping, shared by both prefixed variants):
```
const [index, jobId, activity, currentCommand, history, posY, pidRaw, dead,
       exitStatus] = row.split('\t');
if (index === '0') return null; // Skip initial window
const lastActivityMs = Date.now() - +activity * 1000;
const lines = parseInt(history, 10) + parseInt(posY, 10) + 1;
const pid = parseInt(pidRaw, 10);
const running = dead !== '1';
const base = { jobId, pid, running, currentCommand, lines };
const exitInfo = !running ? { exitCode: parseInt(exitStatus, 10) } : {};
return { ...base, lastActivityMs, ...exitInfo };
```
-/

/-- One raw window row of `list-windows`, already split on tabs. -/
structure RawRow where
  index : List Char
  name : List Char
  activity : List Char
  currentCommand : List Char
  history : List Char
  posY : List Char
  pid : List Char
  dead : List Char
  exitStatus : List Char
  deriving DecidableEq

/-- A normalized job object.  `exitCode`: the outer `Option` is presence
of the field on the returned object, the inner is the NaN-able value. -/
structure JobInfo where
  jobId : List Char
  pid : Option Int
  running : Bool
  currentCommand : List Char
  lines : Option Int
  lastActivityMs : Option Int
  exitCode : Option (Option Int)
  deriving DecidableEq

/-- Normalization of one raw row; `none` is the skipped initial window. -/
def normalizeRow (now : Int) (r : RawRow) : Option JobInfo :=
  if r.index = ['0'] then none
  else
    let running := !(r.dead == ['1'])
    some
      { jobId := r.name
        pid := parseIntJS r.pid
        running := running
        currentCommand := r.currentCommand
        lines := jsAdd (jsAdd (parseIntJS r.history) (parseIntJS r.posY)) (some 1)
        lastActivityMs := jsSub (some now) (jsMul (jsStrToNumber r.activity) (some 1000))
        exitCode := if running then none else some (parseIntJS r.exitStatus) }

/-- The mapped-and-filtered row list (`rows.map(...)` then `filter(!!job)`). -/
def listJobsRows (now : Int) (rows : List RawRow) : List JobInfo :=
  rows.filterMap (normalizeRow now)

/-- The prefixed variant's `listJobs`: empty when `has-session` fails
(`noSession`), empty when the window query itself throws, otherwise the
normalized rows.  The return type is a plain list: no error propagates. -/
def listJobs3 (noSession : Bool) (now : Int)
    (query : Except (List Char) (List RawRow)) : List JobInfo :=
  if noSession then []
  else
    match query with
    | .error _ => []
    | .ok rows => listJobsRows now rows

/-- A window of the fixed-name variant (`src/src/tools.ts`): its position
in the session and its name.  The index is tmux state; that variant's
`list-windows` format queries only the name. -/
structure Window where
  idx : Nat
  name : List Char
  deriving DecidableEq

/-- The reserved sentinel window's name in the fixed-name variant. -/
def mainName : List Char := ['m', 'a', 'i', 'n']

/-- The fixed-name variant's `listJobs` filter:
`allWindows.filter((job) => job.jobId !== WINDOW)`. -/
def listJobsNamed (ws : List Window) : List Window :=
  ws.filter (fun w => !(w.name == mainName))

/-! ### The soft reaper (`cleanupJobs`)

Source:
```
const jobs = await listJobs({});
const cleaned = [];
for (const jobId of jobIds) {
  const job = jobs.find((j) => j.jobId === jobId);
  if (!job) continue;
  if (job.running) continue; // Don't kill running jobs
  await tmux(`kill-window -t ...`).catch(() => {});
  cleaned.push(jobId);
}
return { cleaned };
```
-/

/-- A directory entry as `cleanupJobs` consults it. -/
structure DirJob where
  jobId : List Char
  running : Bool
  deriving DecidableEq

/-- The `cleaned` list: a `kill-window` is issued exactly when an id is
appended. -/
def cleanupJobs (jobIds : List (List Char)) (jobs : List DirJob) : List (List Char) :=
  jobIds.foldl
    (fun cleaned jobId =>
      match jobs.find? (fun j => j.jobId == jobId) with
      | none => cleaned
      | some j => if j.running then cleaned else cleaned ++ [jobId])
    []

/-- The window set after the call: tmux `kill-window -t session:name`
removes exactly the windows bearing a killed name (modelled from the
multiplexer's documented behaviour). -/
def windowsAfterCleanup (jobIds : List (List Char)) (jobs : List DirJob) : List DirJob :=
  jobs.filter (fun j => !((cleanupJobs jobIds jobs).contains j.jobId))

/-! ### Explicit-id creation (`src/src/tools.ts` `createJob`)

Source:
```
const { stdout } = await tmux(`list-windows ${getSession} -F "#{window_name}"`);
const existingJobs = stdout.trim().split('\n');
if (existingJobs.includes(id)) throw new Error(`Job "${id}" already exists`);
await tmux(`new-window -d -e TMUX= -P ${getSession} -n ${esc(id)} ${bash}`);
```
-/

/-- The thrown message `` Job "${id}" already exists ``. -/
def jobExistsMsg (id : List Char) : List Char :=
  ("Job \"".data) ++ id ++ ("\" already exists".data)

/-- The fixed-name variant's `listJobs` view of a name list: every window
name except the sentinel is a job id known to the directory. -/
def directoryIds (windows : List (List Char)) : List (List Char) :=
  windows.filter (fun w => !(w == mainName))

/-- One `createJob` call with an explicit id against the window-name
snapshot: the first component is the raised error (if any), the second
the session's window set when the call returns — unchanged on the error
path, extended by the new window otherwise. -/
def createJobExplicitRun (windows : List (List Char)) (id : List Char) :
    Option (List Char) × List (List Char) :=
  if windows.contains id then (some (jobExistsMsg id), windows)
  else (none, windows ++ [id])

/-! ### Environment handling of the prefixed `createJob`

Source:
```
const { command, prefix = 'job', env: e = { TMUX: '', ...opts.env } } = opts;
...
const env = Object.entries(e).map(([k, v]) => `-e ${k}=${esc(v)}`);
```
The destructuring default is evaluated only when `opts.env` is
`undefined`; in that branch `...opts.env` spreads `undefined`, adding
nothing. -/

/-- The entries of `e` by the destructuring rule above. -/
def envEntries (envOpt : Option (List (List Char × List Char))) :
    List (List Char × List Char) :=
  match envOpt with
  | none => [(['T', 'M', 'U', 'X'], [])]
  | some e => e

/-- The `-e K=V` flags built from the entries. -/
def envFlags (entries : List (List Char × List Char)) : List (List Char) :=
  entries.map (fun kv => ('-' :: 'e' :: ' ' :: kv.1) ++ '=' :: esc kv.2)

/-! ### The input-token parser of `sendInput`

Source:
```
const parts = input.split(/{(\w[^}]*)}/); // [text, key, text, key, ...]
for (let i = 0; i < parts.length; i++) {
  if (!parts[i]) continue;
  const value = i % 2 ? parts[i] : `-l ${esc(parts[i])}`;
  await tmux(`send-keys -t ${paneId} ${value}`);
}
```
The regex matches an opening brace, a word character, any run of
non-closing-brace characters, and the first closing brace after; the
capture (the key name) lands at the odd positions of `split`'s result. -/

/-- The regex's word-character class (ASCII letters, digits, underscore). -/
def isWordChar (c : Char) : Bool := c.isAlpha || c.isDigit || c = '_'

/-- Consume up to the first closing brace: the body matched by the
greedy non-brace run plus the required closing brace.  `none` when no
closing brace follows. -/
def takeKey : List Char → Option (List Char × List Char)
  | [] => none
  | c :: rest =>
      if c = '}' then some ([], rest)
      else (takeKey rest).map (fun p => (c :: p.1, p.2))

/-- Try the token body at a position just after an opening brace: a word
character followed by the run up to a closing brace. -/
def matchKey : List Char → Option (List Char × List Char)
  | [] => none
  | c :: rest =>
      if isWordChar c then (takeKey rest).map (fun p => (c :: p.1, p.2))
      else none

/-- Leftmost token match: the text before it, the captured key name and
the rest after the closing brace. -/
def scanToken : List Char → Option (List Char × List Char × List Char)
  | [] => none
  | c :: rest =>
      if c = '{' then
        match matchKey rest with
        | some (k, a) => some ([], k, a)
        | none => (scanToken rest).map (fun t => (c :: t.1, t.2.1, t.2.2))
      else (scanToken rest).map (fun t => (c :: t.1, t.2.1, t.2.2))

theorem takeKey_eq : ∀ (l m r : List Char), takeKey l = some (m, r) →
    l = m ++ '}' :: r ∧ '}' ∉ m := by
  intro l
  induction l with
  | nil => intro m r h; simp [takeKey] at h
  | cons c rest ih =>
      intro m r h
      rw [takeKey] at h
      by_cases hc : c = '}'
      · simp only [if_pos hc] at h
        simp at h
        obtain ⟨hm, hr⟩ := h
        subst_vars
        simp
      · simp only [if_neg hc] at h
        rcases hres : takeKey rest with _ | ⟨m', r'⟩ <;> rw [hres] at h
        · simp at h
        · simp at h
          obtain ⟨hm, hr⟩ := h
          obtain ⟨he, hnot⟩ := ih m' r' hres
          subst_vars
          refine ⟨by simp, ?_⟩
          simp
          exact ⟨fun hcc => hc hcc.symm, hnot⟩

theorem matchKey_eq : ∀ (l k r : List Char), matchKey l = some (k, r) →
    l = k ++ '}' :: r ∧ k ≠ [] ∧ isWordChar k.head! = true ∧ '}' ∉ k := by
  intro l k r h
  match l with
  | [] => simp [matchKey] at h
  | c :: rest =>
      rw [matchKey] at h
      by_cases hw : isWordChar c
      · simp only [if_pos hw] at h
        rcases hres : takeKey rest with _ | ⟨m', r'⟩ <;> rw [hres] at h
        · simp at h
        · simp at h
          obtain ⟨hk, hr⟩ := h
          obtain ⟨he, hnot⟩ := takeKey_eq rest m' r' hres
          subst_vars
          refine ⟨by simp, by simp, by exact hw, ?_⟩
          simp
          refine ⟨?_, hnot⟩
          intro hcc
          rw [← hcc] at hw
          revert hw
          decide
      · simp [hw] at h

theorem scanToken_eq : ∀ (s b k a : List Char), scanToken s = some (b, k, a) →
    s = b ++ '{' :: (k ++ '}' :: a) := by
  intro s
  induction s with
  | nil => intro b k a h; simp [scanToken] at h
  | cons c rest ih =>
      intro b k a h
      rw [scanToken] at h
      by_cases hc : c = '{'
      · simp only [if_pos hc] at h
        split at h
        · rename_i k' a' hres
          simp at h
          obtain ⟨hb, hk, ha⟩ := h
          have := (matchKey_eq rest k' a' hres).1
          subst_vars
          simp
        · rcases hres2 : scanToken rest with _ | ⟨b', k2, a2⟩ <;> rw [hres2] at h
          · simp at h
          · simp at h
            obtain ⟨hb, hk, ha⟩ := h
            have := ih b' k2 a2 hres2
            subst_vars
            simp
      · simp only [if_neg hc] at h
        rcases hres : scanToken rest with _ | ⟨b', k', a'⟩ <;> rw [hres] at h
        · simp at h
        · simp at h
          obtain ⟨hb, hk, ha⟩ := h
          have := ih b' k' a' hres
          subst_vars
          simp

theorem scanToken_length (s b k a : List Char) (h : scanToken s = some (b, k, a)) :
    a.length < s.length := by
  have := scanToken_eq s b k a h
  rw [this]
  simp
  omega

/-- JavaScript `input.split(/{(\w[^}]*)}/)`: the segments alternate
text, key, text, key, … -/
def jsSplit (s : List Char) : List (List Char) :=
  match h : scanToken s with
  | none => [s]
  | some (b, k, a) =>
      have : a.length < s.length := scanToken_length s b k a h
      b :: k :: jsSplit a
termination_by s.length

/-- Reassembly of split segments: text parts verbatim, key parts wrapped
back in braces.  Mapping this over `jsSplit` recovers the input. -/
def interleaveTokens : List (List Char) → List Char
  | [] => []
  | [t] => t
  | t :: k :: rest => t ++ '{' :: (k ++ '}' :: interleaveTokens rest)

/-- Segments at odd positions (the captured key names) are well-formed
symbolic key tokens: nonempty, led by a word character, free of closing
braces. -/
def altKeys : List (List Char) → Prop
  | [] => True
  | [_] => True
  | _ :: k :: rest =>
      (k ≠ [] ∧ isWordChar k.head! = true ∧ '}' ∉ k) ∧ altKeys rest

/-- The `send-keys` argument for one kept segment: key names verbatim
at odd positions, `-l` plus the shell-escaped literal at even ones. -/
def sendArg (i : Nat) (part : List Char) : List Char :=
  if i % 2 = 1 then part else '-' :: 'l' :: ' ' :: esc part

/-- The sequence of `send-keys` invocations `sendInput` performs, in
order: one per non-empty segment. -/
def sendKeysArgs (input : List Char) : List (List Char) :=
  (jsSplit input).enum.foldl
    (fun acc p => if p.2 = [] then acc else acc ++ [sendArg p.1 p.2]) []

/-! ### Output capture (`getJobOutput`)

Source:
```
const jobInfo = (await listJobs({})).find((j) => j.jobId === jobId);
if (!jobInfo) throw new Error(`Job "${jobId}" not found`);
let output = await tmux(`capture-pane -t ${job} -p -S -`);
if (last && last > 0) output = output.split('\n').slice(-last).join('\n');
```
-/

/-- The thrown message `` Job "${jobId}" not found ``. -/
def notFoundMsg (id : List Char) : List Char :=
  ("Job \"".data) ++ id ++ ("\" not found".data)

/-- `lines.slice(-n)` for `n > 0`: the trailing `min n (length)` lines. -/
def sliceLast (lines : List (List Char)) (n : Nat) : List (List Char) :=
  lines.drop (lines.length - n)

/-- The output transform: `if (last && last > 0)` slices the tail after
splitting on line breaks; otherwise the capture is returned verbatim
(`0`, negative and absent values of `lastLines` are all falsy paths). -/
def getJobOutputText (captured : List Char) (lastLines : Option Int) : List Char :=
  match lastLines with
  | none => captured
  | some n =>
      if 0 < n then
        ['\n'].intercalate (sliceLast (captured.splitOn '\n') n.toNat)
      else captured

/-- The full call: not-found check against the directory snapshot, then
the capture transform. -/
def getJobOutput (jobs : List DirJob) (jobId captured : List Char)
    (lastLines : Option Int) : Except (List Char) (List Char) :=
  match jobs.find? (fun j => j.jobId == jobId) with
  | none => .error (notFoundMsg jobId)
  | some _ => .ok (getJobOutputText captured lastLines)

/-! ## Supporting lemmas -/

/-! ### Decimal digits -/

theorem isDigitChar_ofNat (d : Nat) (hd : d < 10) :
    isDigitChar (Char.ofNat (48 + d)) = true := by
  interval_cases d <;> decide

theorem digitVal_ofNat (d : Nat) (hd : d < 10) :
    digitVal (Char.ofNat (48 + d)) = d := by
  interval_cases d <;> decide

theorem parseDigits_append_singleton (l : List Char) (c : Char) :
    parseDigits (l ++ [c]) = parseDigits l * 10 + digitVal c := by
  simp [parseDigits, List.foldl_append]

theorem natDigits_all_digit (n : Nat) : (natDigits n).all isDigitChar = true := by
  induction n using Nat.strong_induction_on with
  | _ n ih =>
      rw [natDigits]
      by_cases h : n < 10
      · simpa [h] using isDigitChar_ofNat n h
      · have hd : n / 10 < n := Nat.div_lt_self (by omega) (by decide)
        simp [h, List.all_append]
        exact ⟨by simpa using ih (n / 10) hd,
          by simpa using isDigitChar_ofNat (n % 10) (Nat.mod_lt _ (by decide))⟩

theorem natDigits_ne_nil (n : Nat) : natDigits n ≠ [] := by
  rw [natDigits]
  by_cases h : n < 10 <;> simp [h]

theorem parseDigits_natDigits (n : Nat) : parseDigits (natDigits n) = n := by
  induction n using Nat.strong_induction_on with
  | _ n ih =>
      rw [natDigits]
      by_cases h : n < 10
      · simp [h, parseDigits]
        exact digitVal_ofNat n h
      · have hd : n / 10 < n := Nat.div_lt_self (by omega) (by decide)
        rw [if_neg h, parseDigits_append_singleton, ih (n / 10) hd,
          digitVal_ofNat (n % 10) (Nat.mod_lt _ (by decide))]
        omega

theorem natDigits_injective (m n : Nat) (h : natDigits m = natDigits n) : m = n := by
  have hm := parseDigits_natDigits m
  rw [h, parseDigits_natDigits] at hm
  omega

theorem jsStrToNumber_all_digits (l : List Char) (h : l.all isDigitChar = true) :
    jsStrToNumber l = some ((parseDigits l : Int)) := by
  simp [jsStrToNumber, h]

theorem jsStrToNumber_natDigits (n : Nat) :
    jsStrToNumber (natDigits n) = some ((n : Int)) := by
  rw [jsStrToNumber_all_digits _ (natDigits_all_digit n), parseDigits_natDigits]

/-! ### Allocation -/

theorem jsMaxList_cons (x : Option Int) (xs : List (Option Int)) (h : xs ≠ []) :
    jsMaxList (x :: xs) = jsMax x (jsMaxList xs) := by
  cases xs with
  | nil => simp at h
  | cons y ys => rfl

theorem entryNumber_good (pfx j : List Char) (hg : goodId pfx j) :
    entryNumber (suffixEntry pfx j) = some ((entryVal pfx j : Int)) := by
  by_cases hp : pfx.isPrefixOf j = true
  · simp [suffixEntry, hp, entryNumber, entryVal,
      jsStrToNumber_all_digits _ (hg hp)]
  · simp [suffixEntry, hp, entryNumber, entryVal]

theorem foldl_max_init {α : Type} (f : α → Nat) (l : List α) (a : Nat) :
    l.foldl (fun m x => max m (f x)) a = max a (l.foldl (fun m x => max m (f x)) 0) := by
  induction l generalizing a with
  | nil => simp
  | cons x l ih =>
      simp only [List.foldl_cons]
      rw [ih (max a (f x)), ih (max 0 (f x)), Nat.zero_max, Nat.max_assoc]

theorem le_foldl_max {α : Type} (f : α → Nat) (l : List α) (a : Nat) :
    a ≤ l.foldl (fun m x => max m (f x)) a := by
  induction l generalizing a with
  | nil => simp
  | cons x l ih =>
      simp only [List.foldl_cons]
      exact le_trans (Nat.le_max_left a (f x)) (ih (max a (f x)))

theorem entryVal_le_maxSuffix (pfx j : List Char) (jobIds : List (List Char))
    (hj : j ∈ jobIds) : entryVal pfx j ≤ maxSuffix jobIds pfx := by
  induction jobIds with
  | nil => simp at hj
  | cons x l ih =>
      rcases List.mem_cons.mp hj with rfl | hj2
      · unfold maxSuffix
        simp only [List.foldl_cons]
        exact le_trans (Nat.le_max_right 0 (entryVal pfx j)) (le_foldl_max _ _ _)
      · unfold maxSuffix at ih ⊢
        simp only [List.foldl_cons]
        rw [foldl_max_init]
        exact le_trans (ih hj2) (Nat.le_max_right _ _)

theorem jsMaxList_entries (pfx : List Char) : ∀ (l : List (List Char)), l ≠ [] →
    (∀ j ∈ l, goodId pfx j) →
    jsMaxList (l.map (fun j => entryNumber (suffixEntry pfx j))) =
      some ((maxSuffix l pfx : Int)) := by
  intro l
  induction l with
  | nil => intro h; simp at h
  | cons x l ih =>
      intro _ hg
      by_cases hl : l = []
      · subst hl
        simp [jsMaxList, entryNumber_good pfx x (hg x (by simp)), maxSuffix]
      · rw [List.map_cons, jsMaxList_cons _ _ (by simpa using hl),
          entryNumber_good pfx x (hg x (by simp)),
          ih hl (fun j hj => hg j (by simp [hj]))]
        unfold maxSuffix
        simp only [List.foldl_cons, jsMax]
        have e1 : List.foldl (fun m j => max m (entryVal pfx j))
              (max 0 (entryVal pfx x)) l =
            max (entryVal pfx x)
              (List.foldl (fun m j => max m (entryVal pfx j)) 0 l) := by
          rw [Nat.zero_max, foldl_max_init]
        rw [e1, Nat.cast_max]

theorem allocMax_good (jobIds : List (List Char)) (pfx : List Char)
    (hg : ∀ j ∈ jobIds, goodId pfx j) :
    allocMax jobIds pfx = some ((maxSuffix jobIds pfx : Int)) := by
  by_cases h : jobIds = []
  · subst h; simp [allocMax, maxSuffix]
  · rw [allocMax, if_neg h, jsMaxList_entries pfx jobIds h hg]

theorem allocateId_good (jobIds : List (List Char)) (pfx : List Char)
    (hg : ∀ j ∈ jobIds, goodId pfx j) :
    allocateId jobIds pfx = pfx ++ natDigits (maxSuffix jobIds pfx + 1) := by
  have h1 : ¬((maxSuffix jobIds pfx : Int) + 1 < 0) := by omega
  have h2 : ((maxSuffix jobIds pfx : Int) + 1).natAbs = maxSuffix jobIds pfx + 1 := by
    omega
  rw [allocateId, allocMax_good jobIds pfx hg]
  simp [jsAdd, jsNumToChars, h1, h2]

theorem isPrefixOf_append (pfx t : List Char) : pfx.isPrefixOf (pfx ++ t) = true :=
  List.isPrefixOf_iff_prefix.mpr (List.prefix_append pfx t)

theorem entryVal_append_digits (pfx : List Char) (m : Nat) :
    entryVal pfx (pfx ++ natDigits m) = m := by
  simp [entryVal, isPrefixOf_append, List.drop_left, parseDigits_natDigits]

theorem goodId_append_digits (pfx : List Char) (m : Nat) :
    goodId pfx (pfx ++ natDigits m) := by
  intro _
  rw [List.drop_left]
  exact natDigits_all_digit m

theorem maxSuffix_append_singleton (jobIds : List (List Char)) (pfx x : List Char) :
    maxSuffix (jobIds ++ [x]) pfx = max (maxSuffix jobIds pfx) (entryVal pfx x) := by
  unfold maxSuffix
  rw [List.foldl_append]
  simp

/-! ### Tokenizer facts used by the `sendInput` theorems -/

theorem jsSplit_none (s : List Char) (h : scanToken s = none) : jsSplit s = [s] := by
  rw [jsSplit.eq_def]
  split
  · rfl
  · rename_i b k a heq
    rw [h] at heq
    cases heq

theorem jsSplit_some (s b k a : List Char) (h : scanToken s = some (b, k, a)) :
    jsSplit s = b :: k :: jsSplit a := by
  rw [jsSplit.eq_def]
  split
  · rename_i heq
    rw [h] at heq
    cases heq
  · rename_i b' k' a' heq
    rw [h] at heq
    cases heq
    rfl

theorem scanToken_key : ∀ (s b k a : List Char), scanToken s = some (b, k, a) →
    k ≠ [] ∧ isWordChar k.head! = true ∧ '}' ∉ k := by
  intro s
  induction s with
  | nil => intro b k a h; simp [scanToken] at h
  | cons c rest ih =>
      intro b k a h
      rw [scanToken] at h
      by_cases hc : c = '{'
      · simp only [if_pos hc] at h
        split at h
        · rename_i k' a' hres
          simp at h
          obtain ⟨hb, hk, ha⟩ := h
          obtain ⟨_, hne, hhead, hnot⟩ := matchKey_eq rest k' a' hres
          subst_vars
          exact ⟨hne, hhead, hnot⟩
        · rcases hres2 : scanToken rest with _ | ⟨b', k2, a2⟩ <;> rw [hres2] at h
          · simp at h
          · simp at h
            obtain ⟨hb, hk, ha⟩ := h
            obtain ⟨hne, hhead, hnot⟩ := ih b' k2 a2 hres2
            subst_vars
            exact ⟨hne, hhead, hnot⟩
      · simp only [if_neg hc] at h
        rcases hres : scanToken rest with _ | ⟨b', k', a'⟩ <;> rw [hres] at h
        · simp at h
        · simp at h
          obtain ⟨hb, hk, ha⟩ := h
          obtain ⟨hne, hhead, hnot⟩ := ih b' k' a' hres
          subst_vars
          exact ⟨hne, hhead, hnot⟩

theorem interleave_jsSplit (s : List Char) : interleaveTokens (jsSplit s) = s := by
  induction s using jsSplit.induct with
  | case1 s h => rw [jsSplit_none s h]; rfl
  | case2 s b k a h _ iha =>
      rw [jsSplit_some s b k a h]
      show b ++ '{' :: (k ++ '}' :: interleaveTokens (jsSplit a)) = s
      rw [iha]
      exact (scanToken_eq s b k a h).symm

theorem altKeys_jsSplit (s : List Char) : altKeys (jsSplit s) := by
  induction s using jsSplit.induct with
  | case1 s h => rw [jsSplit_none s h]; trivial
  | case2 s b k a h _ iha =>
      rw [jsSplit_some s b k a h]
      exact ⟨scanToken_key s b k a h, iha⟩

theorem foldl_snoc_filterMap {α β : Type} (f : α → Option β) :
    ∀ (l : List α) (acc : List β),
      l.foldl (fun acc x => acc ++ (f x).toList) acc = acc ++ l.filterMap f := by
  intro l
  induction l with
  | nil => intro acc; simp
  | cons x l ih =>
      intro acc
      simp only [List.foldl_cons, List.filterMap_cons]
      rcases hf : f x with _ | y <;> simp [hf, ih]

/-! ### `cleanupJobs` as a filter -/

theorem cleanupJobs_eq_filter (jobIds : List (List Char)) (jobs : List DirJob) :
    cleanupJobs jobIds jobs = jobIds.filter (fun id =>
      match jobs.find? (fun j => j.jobId == id) with
      | none => false
      | some j => !j.running) := by
  have gen : ∀ (l : List (List Char)) (acc : List (List Char)),
      l.foldl (fun cleaned jobId =>
          match jobs.find? (fun j => j.jobId == jobId) with
          | none => cleaned
          | some j => if j.running then cleaned else cleaned ++ [jobId]) acc
        = acc ++ l.filter (fun id =>
            match jobs.find? (fun j => j.jobId == id) with
            | none => false
            | some j => !j.running) := by
    intro l
    induction l with
    | nil => intro acc; simp
    | cons x l ih =>
        intro acc
        simp only [List.foldl_cons, List.filter_cons]
        rcases hf : jobs.find? (fun j => j.jobId == x) with _ | j
        · simp [hf, ih]
        · rcases hr : j.running <;> simp [hf, hr, ih]
  simpa using gen jobIds []

/-! ### Separator-freeness of `splitOn` segments -/

theorem splitOnP_no_sep {α : Type} (p : α → Bool) :
    ∀ (xs l : List α), l ∈ xs.splitOnP p → ∀ c ∈ l, p c = false := by
  intro xs
  induction xs with
  | nil =>
      intro l hl c hc
      rw [List.splitOnP_nil] at hl
      simp at hl
      subst hl
      simp at hc
  | cons a xs ih =>
      intro l hl c hc
      rw [List.splitOnP_cons] at hl
      by_cases hp : p a
      · rw [if_pos hp] at hl
        rcases List.mem_cons.mp hl with rfl | hl2
        · simp at hc
        · exact ih l hl2 c hc
      · rw [if_neg hp] at hl
        rcases hxs : xs.splitOnP p with _ | ⟨h0, t⟩
        · exact absurd hxs (List.splitOnP_ne_nil _ xs)
        · rw [hxs] at hl
          simp [List.modifyHead] at hl
          rcases hl with rfl | hl2
          · rcases List.mem_cons.mp hc with rfl | hc2
            · simpa using hp
            · exact ih h0 (by rw [hxs]; exact List.mem_cons_self h0 t) c hc2
          · exact ih l (by rw [hxs]; exact List.mem_cons_of_mem h0 hl2) c hc

theorem mem_splitOn_sep_not_mem (x : Char) (xs : List Char) :
    ∀ l ∈ xs.splitOn x, x ∉ l := by
  intro l hl hx
  have hp : (x == x) = false := splitOnP_no_sep (· == x) xs l hl x hx
  simp at hp

/-! ### Shell unquoting of `esc` output -/

theorem unquoteAux_false_quote (y : List Char) :
    unquoteAux false ('\'' :: y) = unquoteAux true y := by
  rw [unquoteAux.eq_def]
  simp

theorem unquoteAux_true_escChar (cs : List Char) : ∀ rest : List Char,
    unquoteAux true (cs.flatMap escChar ++ '\'' :: rest) =
      (unquoteAux false rest).map (fun t => cs ++ t) := by
  induction cs with
  | nil =>
      intro rest
      simp [unquoteAux]
  | cons c cs' ih =>
      intro rest
      by_cases hc : c = '\''
      · subst hc
        simp only [List.flatMap_cons, escChar, if_pos rfl, List.cons_append,
          List.append_assoc, List.nil_append]
        simp [unquoteAux]
        rw [unquoteAux_false_quote, ih rest]
        rcases unquoteAux false rest with _ | t <;> simp
      · simp only [List.flatMap_cons, escChar, if_neg hc, List.singleton_append,
          List.cons_append, List.nil_append]
        rw [unquoteAux]
        rw [if_neg hc]
        rw [ih rest]
        rcases unquoteAux false rest with _ | t <;> simp

/-! ### Output slicing -/

theorem getJobOutputText_some_pos (captured : List Char) (n : Int) (hn : 0 < n) :
    getJobOutputText captured (some n) =
      ['\n'].intercalate (sliceLast (captured.splitOn '\n') n.toNat) := by
  simp [getJobOutputText, hn]

theorem splitOn_ne_nil_chars (x : Char) (xs : List Char) : xs.splitOn x ≠ [] := by
  rw [List.splitOn]
  exact List.splitOnP_ne_nil _ xs

theorem sliceLast_ne_nil (lines : List (List Char)) (n : Nat) (hl : lines ≠ [])
    (hn : 1 ≤ n) : sliceLast lines n ≠ [] := by
  unfold sliceLast
  have h1 : 1 ≤ lines.length := by
    cases lines with
    | nil => simp at hl
    | cons a l => simp
  intro h
  have := congrArg List.length h
  simp [List.length_drop] at this
  omega

theorem splitOn_getJobOutputText (captured : List Char) (n : Int) (hn : 0 < n) :
    (getJobOutputText captured (some n)).splitOn '\n' =
      sliceLast (captured.splitOn '\n') n.toNat := by
  rw [getJobOutputText_some_pos captured n hn]
  apply List.splitOn_intercalate
  · intro l hl
    exact mem_splitOn_sep_not_mem '\n' captured l (List.drop_subset _ _ hl)
  · exact sliceLast_ne_nil _ _ (splitOn_ne_nil_chars '\n' captured) (by omega)

/-! ## The claims -/

/-- C1, counterexample: with jobs `jobx` and `job2` in the directory and
prefix `job`, the code allocates `jobNaN`, not `job3`: the non-numeric
suffix `x` is not treated as absent — `Number("x")` is NaN and
`Math.max` propagates it into the template. -/
theorem createJob_autoId_counterexample :
    allocateId ["jobx".data, "job2".data] "job".data = "jobNaN".data ∧
    allocateId ["jobx".data, "job2".data] "job".data ≠ "job3".data := by
  decide

/-- C1, amended: on snapshots where every job id sharing the prefix has an
all-digits suffix, `createJob` allocates `prefix ++ (max+1)` where `max`
is the largest numeric suffix (`0` when none shares the prefix); the
allocated id is fresh, and a second allocation against the snapshot
extended by the first returns the next number, distinct from the first —
regardless of jobs under other prefixes. -/
theorem createJob_autoId_allocates (jobIds : List (List Char)) (pfx : List Char)
    (H : ∀ j ∈ jobIds, goodId pfx j) :
    allocateId jobIds pfx = pfx ++ natDigits (maxSuffix jobIds pfx + 1) ∧
    allocateId jobIds pfx ∉ jobIds ∧
    allocateId (jobIds ++ [allocateId jobIds pfx]) pfx =
      pfx ++ natDigits (maxSuffix jobIds pfx + 2) ∧
    allocateId (jobIds ++ [allocateId jobIds pfx]) pfx ≠ allocateId jobIds pfx := by
  have h1 := allocateId_good jobIds pfx H
  have H2 : ∀ j ∈ jobIds ++ [allocateId jobIds pfx], goodId pfx j := by
    intro j hj
    rcases List.mem_append.mp hj with hj2 | hj2
    · exact H j hj2
    · simp at hj2
      subst hj2
      rw [h1]
      exact goodId_append_digits pfx (maxSuffix jobIds pfx + 1)
  have hmax2 : maxSuffix (jobIds ++ [allocateId jobIds pfx]) pfx =
      maxSuffix jobIds pfx + 1 := by
    rw [maxSuffix_append_singleton, h1, entryVal_append_digits,
      Nat.max_eq_right (Nat.le_succ _)]
  have hnotin : allocateId jobIds pfx ∉ jobIds := by
    intro hmem
    have hle := entryVal_le_maxSuffix pfx _ jobIds hmem
    rw [h1, entryVal_append_digits] at hle
    omega
  have h3 : allocateId (jobIds ++ [allocateId jobIds pfx]) pfx =
      pfx ++ natDigits (maxSuffix jobIds pfx + 2) := by
    rw [allocateId_good _ pfx H2, hmax2]
  refine ⟨h1, hnotin, h3, ?_⟩
  rw [h3, h1]
  intro he
  have := natDigits_injective _ _ (List.append_cancel_left he)
  omega

/-- C1, witness at the snapshot `[job2, other5]` with prefix `job`. -/
theorem createJob_autoId_allocates_witness :
    allocateId ["job2".data, "other5".data] "job".data =
      "job".data ++
        natDigits (maxSuffix ["job2".data, "other5".data] "job".data + 1) ∧
    allocateId ["job2".data, "other5".data] "job".data ∉
      ["job2".data, "other5".data] ∧
    allocateId (["job2".data, "other5".data] ++
        [allocateId ["job2".data, "other5".data] "job".data]) "job".data =
      "job".data ++
        natDigits (maxSuffix ["job2".data, "other5".data] "job".data + 2) ∧
    allocateId (["job2".data, "other5".data] ++
        [allocateId ["job2".data, "other5".data] "job".data]) "job".data ≠
      allocateId ["job2".data, "other5".data] "job".data :=
  createJob_autoId_allocates ["job2".data, "other5".data] "job".data (by decide)

/-- C2: `cleanupJobs` reports exactly the given ids that are present in
the snapshot and not running; absent ids and running ids are skipped, a
running job's id is never in the cleaned set, and (names being unique in
a tmux session) every running job's window survives the call. -/
theorem cleanupJobs_only_dead (jobIds : List (List Char)) (jobs : List DirJob)
    (hnd : (jobs.map (fun j => j.jobId)).Nodup) :
    (∀ id ∈ cleanupJobs jobIds jobs, id ∈ jobIds ∧
        ∃ j, jobs.find? (fun x => x.jobId == id) = some j ∧ j.running = false) ∧
    (∀ id, jobs.find? (fun x => x.jobId == id) = none →
        id ∉ cleanupJobs jobIds jobs) ∧
    (∀ id j, jobs.find? (fun x => x.jobId == id) = some j → j.running = true →
        id ∉ cleanupJobs jobIds jobs) ∧
    (∀ j ∈ jobs, j.running = true → j ∈ windowsAfterCleanup jobIds jobs) := by
  have hmem : ∀ id, id ∈ cleanupJobs jobIds jobs ↔ id ∈ jobIds ∧
      (match jobs.find? (fun x => x.jobId == id) with
        | none => false
        | some j => !j.running) = true := by
    intro id
    rw [cleanupJobs_eq_filter]
    exact List.mem_filter
  refine ⟨?_, ?_, ?_, ?_⟩
  · intro id hid
    obtain ⟨hin, hpred⟩ := (hmem id).mp hid
    refine ⟨hin, ?_⟩
    rcases hf : jobs.find? (fun x => x.jobId == id) with _ | j
    · rw [hf] at hpred; cases hpred
    · rw [hf] at hpred
      simp at hpred
      exact ⟨j, hf, hpred⟩
  · intro id hf hid
    obtain ⟨_, hpred⟩ := (hmem id).mp hid
    rw [hf] at hpred
    cases hpred
  · intro id j hf hr hid
    obtain ⟨_, hpred⟩ := (hmem id).mp hid
    rw [hf] at hpred
    simp [hr] at hpred
  · intro j hj hr
    rw [windowsAfterCleanup, List.mem_filter]
    refine ⟨hj, ?_⟩
    simp only [Bool.not_eq_true']
    rw [Bool.eq_false_iff]
    intro hcontains
    have hmem2 : j.jobId ∈ cleanupJobs jobIds jobs := by
      simpa [List.elem_iff] using hcontains
    obtain ⟨_, hpred⟩ := (hmem j.jobId).mp hmem2
    rcases hf : jobs.find? (fun x => x.jobId == j.jobId) with _ | j'
    · rw [hf] at hpred; cases hpred
    · rw [hf] at hpred
      simp at hpred
      have hj' : j' ∈ jobs := List.mem_of_find?_eq_some hf
      have hjid : j'.jobId = j.jobId := by
        have := List.find?_some hf
        simpa using this
      have : j' = j :=
        List.inj_on_of_nodup_map hnd hj' hj (by simpa using hjid)
      rw [this] at hpred
      rw [hr] at hpred
      cases hpred

/-- C2, witness: a running job `b` is not cleaned. -/
theorem cleanupJobs_only_dead_witness :
    "b".data ∉ cleanupJobs ["a".data, "b".data]
      [⟨"a".data, false⟩, ⟨"b".data, true⟩] :=
  (cleanupJobs_only_dead ["a".data, "b".data]
      [⟨"a".data, false⟩, ⟨"b".data, true⟩] (by decide)).2.2.1
    "b".data ⟨"b".data, true⟩ (by decide) rfl

/-- C3: an explicit job id already present among the session's window
names (in particular any id known to the directory, live or dead) makes
`createJob` raise `Job "id" already exists` and leave the window set
unchanged: no window is created on this path. -/
theorem createJob_explicit_conflict (windows : List (List Char)) (id : List Char)
    (h : id ∈ directoryIds windows) :
    (createJobExplicitRun windows id).1 = some (jobExistsMsg id) ∧
    (createJobExplicitRun windows id).2 = windows := by
  have hin : id ∈ windows := (List.mem_filter.mp h).1
  have hc : windows.contains id = true := by
    simpa [List.elem_iff] using hin
  rw [createJobExplicitRun, if_pos hc]
  exact ⟨rfl, rfl⟩

/-- C3, witness: creating `job1` twice fails and keeps the windows. -/
theorem createJob_explicit_conflict_witness :
    (createJobExplicitRun ["main".data, "job1".data] "job1".data).1 =
      some (jobExistsMsg "job1".data) ∧
    (createJobExplicitRun ["main".data, "job1".data] "job1".data).2 =
      ["main".data, "job1".data] :=
  createJob_explicit_conflict ["main".data, "job1".data] "job1".data (by decide)

/-- C4: `sendInput` splits the input on the bracket-token pattern so that
reassembling the even segments verbatim and the odd segments re-wrapped
in braces recovers the input (left-to-right, order preserving); every
odd segment is a wellformed key token (nonempty, word-character head, no
closing brace); and the key sends performed are exactly, in order, one
per non-empty segment — the segment itself for odd (key) positions, `-l`
plus the shell-escaped segment for even (literal) positions. -/
theorem sendInput_token_split (input : List Char) :
    interleaveTokens (jsSplit input) = input ∧
    altKeys (jsSplit input) ∧
    sendKeysArgs input = (jsSplit input).enum.filterMap
      (fun p => if p.2 = [] then none else some (sendArg p.1 p.2)) := by
  refine ⟨interleave_jsSplit input, altKeys_jsSplit input, ?_⟩
  rw [sendKeysArgs]
  have hbody : (fun (acc : List (List Char)) (p : Nat × List Char) =>
      if p.2 = [] then acc else acc ++ [sendArg p.1 p.2]) =
      (fun acc p =>
        acc ++ (if p.2 = [] then none else some (sendArg p.1 p.2)).toList) := by
    funext acc p
    by_cases hp : p.2 = [] <;> simp [hp]
  rw [hbody]
  simpa using foldl_snoc_filterMap
    (fun p : Nat × List Char => if p.2 = [] then none else some (sendArg p.1 p.2))
    (jsSplit input).enum []

/-- C5: every raw row the directory does not skip is normalized with
`lastActivityMs = now - activity*1000`, `lines = history + cursorRow + 1`,
`running = (dead ≠ "1")`, and the `exitCode` field present exactly when
the pane is dead. -/
theorem listJobs_normalizes (now : Int) (r : RawRow) (act hist posy : Int)
    (hidx : r.index ≠ ['0'])
    (ha : jsStrToNumber r.activity = some act)
    (hh : parseIntJS r.history = some hist)
    (hy : parseIntJS r.posY = some posy) :
    ∃ job, normalizeRow now r = some job ∧
      job.lastActivityMs = some (now - act * 1000) ∧
      job.lines = some (hist + posy + 1) ∧
      job.running = !(r.dead == ['1']) ∧
      job.exitCode = (if job.running then none
        else some (parseIntJS r.exitStatus)) ∧
      job.exitCode.isSome = !job.running := by
  rw [normalizeRow, if_neg hidx]
  refine ⟨_, rfl, ?_, ?_, rfl, ?_, ?_⟩
  · simp [jsSub, jsMul, ha]
  · simp [jsAdd, hh, hy]
  · rcases hd : (r.dead == ['1']) <;> simp [hd]
  · rcases hd : (r.dead == ['1']) <;> simp [hd]

/-- C5, witness at a concrete dead-pane row. -/
theorem listJobs_normalizes_witness :
    ∃ job,
      normalizeRow 5000
          { index := "2".data, name := "job2".data, activity := "3".data,
            currentCommand := "bash".data, history := "4".data,
            posY := "5".data, pid := "77".data, dead := "1".data,
            exitStatus := "0".data } = some job ∧
      job.lastActivityMs = some (5000 - 3 * 1000) ∧
      job.lines = some (4 + 5 + 1) ∧
      job.running = !(("1".data : List Char) == ['1']) ∧
      job.exitCode = (if job.running then none
        else some (parseIntJS "0".data)) ∧
      job.exitCode.isSome = !job.running :=
  listJobs_normalizes 5000
    { index := "2".data, name := "job2".data, activity := "3".data,
      currentCommand := "bash".data, history := "4".data,
      posY := "5".data, pid := "77".data, dead := "1".data,
      exitStatus := "0".data } 3 4 5
    (by decide) (by decide) (by decide) (by decide)

/-- C6: with a positive `lastLines = N` the returned output's line list is
exactly the trailing slice of the captured text's line list (computed by
splitting on line breaks, trailing blank lines included), hence at most
N lines and a suffix of the unrestricted output's lines; without a
positive `lastLines` the capture is returned whole, and a found job
always yields `ok` of this transform. -/
theorem getJobOutput_lastLines (captured : List Char) :
    (∀ n : Int, 0 < n →
        (getJobOutputText captured (some n)).splitOn '\n' =
          sliceLast (captured.splitOn '\n') n.toNat ∧
        ((getJobOutputText captured (some n)).splitOn '\n').length ≤ n.toNat ∧
        List.IsSuffix ((getJobOutputText captured (some n)).splitOn '\n')
          (captured.splitOn '\n')) ∧
    getJobOutputText captured none = captured ∧
    (∀ n : Int, n ≤ 0 → getJobOutputText captured (some n) = captured) ∧
    (∀ (jobs : List DirJob) (jobId : List Char) (j : DirJob),
        jobs.find? (fun x => x.jobId == jobId) = some j →
        ∀ lastLines, getJobOutput jobs jobId captured lastLines =
          .ok (getJobOutputText captured lastLines)) := by
  refine ⟨?_, rfl, ?_, ?_⟩
  · intro n hn
    have hsplit := splitOn_getJobOutputText captured n hn
    refine ⟨hsplit, ?_, ?_⟩
    · rw [hsplit]
      unfold sliceLast
      simp [List.length_drop]
      omega
    · rw [hsplit]
      exact List.drop_suffix _ _
  · intro n hn
    rw [getJobOutputText, if_neg (by omega)]
  · intro jobs jobId j hf lastLines
    rw [getJobOutput, hf]

/-- C7: when the session-existence probe reports absence, `listJobs`
returns the empty list — and the window-query-failure branch likewise
returns `[]`; the result type carries no error in either case. -/
theorem listJobs_no_session (now : Int)
    (query : Except (List Char) (List RawRow)) :
    listJobs3 true now query = [] ∧
    ∀ e, listJobs3 false now (.error e) = [] := by
  constructor
  · simp [listJobs3]
  · intro e
    simp [listJobs3]

/-- C8, counterexample: the fixed-name variant filters only by name, so a
window sitting at the reserved index 0 but named `x` is surfaced as a
job — refuting "neither named with the sentinel name nor at the
reserved index 0" as a property of every variant and window set. -/
theorem listJobs_sentinel_counterexample :
    listJobsNamed [{ idx := 0, name := ['x'] }] = [{ idx := 0, name := ['x'] }] := by
  decide

/-- C8, amended: each variant excludes its own sentinel by its own
criterion — the fixed-name variant never returns a job named `main`,
and the prefixed variant never returns a job built from a row at window
index 0. -/
theorem listJobs_sentinel_excluded (ws : List Window) (now : Int)
    (rows : List RawRow) :
    (∀ w ∈ listJobsNamed ws, w.name ≠ mainName) ∧
    (∀ job ∈ listJobsRows now rows, ∃ r ∈ rows, r.index ≠ ['0'] ∧
        normalizeRow now r = some job) := by
  constructor
  · intro w hw
    have := (List.mem_filter.mp hw).2
    simpa using this
  · intro job hjob
    obtain ⟨r, hr, hnorm⟩ := List.mem_filterMap.mp hjob
    refine ⟨r, hr, ?_, hnorm⟩
    intro hidx
    rw [normalizeRow, if_pos hidx] at hnorm
    cases hnorm

/-- C9, code evaluation at the failing input: when the caller supplies an
`env` map, the destructuring default `{ TMUX: '', ...opts.env }` is not
evaluated, so the window's environment flags carry only the caller's
entries and `TMUX` is not cleared; only the no-`env` call clears it. -/
theorem createJob_env_tmux_only_default :
    envEntries (some [("FOO".data, "bar".data)]) = [("FOO".data, "bar".data)] ∧
    (∀ v, ("TMUX".data, v) ∉ envEntries (some [("FOO".data, "bar".data)])) ∧
    envEntries none = [("TMUX".data, [])] := by
  refine ⟨rfl, ?_, by decide⟩
  intro v hv
  simp [envEntries] at hv

/-- C10: `esc` is correct single-argument POSIX quoting: evaluating its
output as a shell word yields exactly the original string, for every
string, quotes, spaces and metacharacters included. -/
theorem esc_shell_roundtrip (s : List Char) : unquote (esc s) = some s := by
  rw [unquote, esc]
  rw [unquoteAux_false_quote]
  rw [show (s.flatMap escChar ++ ['\''] : List Char) =
      s.flatMap escChar ++ '\'' :: [] from rfl]
  rw [unquoteAux_true_escChar s []]
  simp [unquoteAux]

end Tmuxer
